import Mathlib

/-!
Shallow embedding of the statistics and histogram-rendering core of
nvbench (`nvbench/internal/histogram_printer.cuh`): `compute_noise`,
`compute_percentiles`, `compute_histogram`, `fit_histogram` and the
`histogram_printer` renderer.  IEEE doubles are modelled by exact
arithmetic: `ℚ` wherever the development has to evaluate concretely and
`ℝ` where `Real.sqrt` is required.  The one machine-integer effect that
matters (the `size_t` wrap-around in `compute_percentiles`) is modelled
explicitly with `% 2 ^ 64`.  Sample counts and histogram entries, which
the code stores in `int64_t` but which are always iterator distances and
hence non-negative, are modelled as `ℕ`.
-/

namespace NvbenchModel

/-- One boundary level of a histogram window: `min + stride * i`, the
value the C++ loop computes as `min + stride * static_cast<float64_t>(i)`. -/
def level (min stride : ℚ) (i : ℕ) : ℚ := min + stride * i

/-- The sweep of `compute_histogram`: at boundary `i` the C++ code moves
`iter` forward with `std::lower_bound(iter, last, level)` and records the
distance travelled.  On the sorted suffix `rest` this distance is the
length of the `takeWhile (· < level)` prefix, and the new suffix is the
corresponding `dropWhile`.  The fuel argument counts the remaining loop
iterations (`bins + 1` at the start); when it runs out the code appends
`distance(iter, last)`, the length of the remaining suffix. -/
def histoGo (min stride : ℚ) : List ℚ → ℕ → ℕ → List ℕ
  | rest, _, 0 => [rest.length]
  | rest, i, k + 1 =>
      (rest.takeWhile (fun x => x < level min stride i)).length ::
        histoGo min stride (rest.dropWhile (fun x => x < level min stride i)) (i + 1) k

/-- `compute_histogram(data, min, stride, bins)` from
`histogram_printer.cuh`: `bins + 1` sweep steps followed by the overflow
count. -/
def compute_histogram (data : List ℚ) (min stride : ℚ) (bins : ℕ) : List ℕ :=
  histoGo min stride data 0 (bins + 1)

theorem histoGo_length (min stride : ℚ) :
    ∀ (k : ℕ) (rest : List ℚ) (i : ℕ), (histoGo min stride rest i k).length = k + 1 := by
  intro k
  induction k with
  | zero => intro rest i; rfl
  | succ k ih =>
      intro rest i
      simp only [histoGo, List.length_cons, ih]

theorem histoGo_sum (min stride : ℚ) :
    ∀ (k : ℕ) (rest : List ℚ) (i : ℕ), (histoGo min stride rest i k).sum = rest.length := by
  intro k
  induction k with
  | zero => intro rest i; simp [histoGo]
  | succ k ih =>
      intro rest i
      have hsplit :
          (rest.takeWhile (fun x => x < level min stride i)).length +
            (rest.dropWhile (fun x => x < level min stride i)).length = rest.length := by
        rw [← List.length_append, List.takeWhile_append_dropWhile]
      simpa [histoGo, ih] using hsplit

theorem compute_histogram_length (data : List ℚ) (min stride : ℚ) (bins : ℕ) :
    (compute_histogram data min stride bins).length = bins + 2 := by
  simpa [compute_histogram] using histoGo_length min stride (bins + 1) data 0

/-- Claim C2: for every sample sequence and window, the `bins + 2`
entries of `compute_histogram` sum to the number of samples, and every
entry is a non-negative integer (the counts are iterator distances,
modelled as `ℕ`, hence non-negative as `int64_t` values). -/
theorem claim_C2_histogram_sum (data : List ℚ) (min stride : ℚ) (bins : ℕ) :
    (compute_histogram data min stride bins).sum = data.length ∧
      (compute_histogram data min stride bins).length = bins + 2 ∧
      ∀ e ∈ compute_histogram data min stride bins, 0 ≤ (e : ℤ) := by
  refine ⟨?_, compute_histogram_length data min stride bins, ?_⟩
  · simpa [compute_histogram] using histoGo_sum min stride (bins + 1) data 0
  · intro e _
    exact Int.ofNat_nonneg e

theorem takeWhile_lt_length_sorted (c : ℚ) :
    ∀ (l : List ℚ), l.Sorted (· ≤ ·) →
      (l.takeWhile (fun x => x < c)).length = l.countP (fun x => x < c) := by
  intro l
  induction l with
  | nil => intro _; rfl
  | cons a l ih =>
      intro hs
      rcases List.sorted_cons.mp hs with ⟨ha, hl⟩
      by_cases hac : a < c
      · rw [List.takeWhile_cons_of_pos (by simpa using hac),
          List.countP_cons_of_pos _ _ (by simpa using hac), List.length_cons, ih hl]
      · rw [List.takeWhile_cons_of_neg (by simpa using hac)]
        symm
        simp only [List.length_nil]
        rw [List.countP_eq_zero]
        intro x hx
        simp only [decide_eq_true_eq]
        intro hxc
        rcases List.mem_cons.mp hx with rfl | hx'
        · exact hac hxc
        · exact hac (lt_of_le_of_lt (ha x hx') hxc)

theorem dropWhile_lt_sorted (c : ℚ) :
    ∀ (l : List ℚ), l.Sorted (· ≤ ·) →
      l.dropWhile (fun x => x < c) = l.filter (fun x => c ≤ x) := by
  intro l
  induction l with
  | nil => intro _; rfl
  | cons a l ih =>
      intro hs
      rcases List.sorted_cons.mp hs with ⟨ha, hl⟩
      by_cases hac : a < c
      · rw [List.dropWhile_cons_of_pos (by simpa using hac),
          List.filter_cons_of_neg (by simpa using not_le.mpr hac), ih hl]
      · rw [List.dropWhile_cons_of_neg (by simpa using hac),
          List.filter_cons_of_pos (by simpa using not_lt.mp hac)]
        congr 1
        symm
        rw [List.filter_eq_self]
        intro x hx
        exact decide_eq_true (le_trans (not_lt.mp hac) (ha x hx))

theorem countP_filter_of_imp {α : Type} (p q : α → Bool)
    (h : ∀ x, p x = true → q x = true) :
    ∀ l : List α, (l.filter q).countP p = l.countP p := by
  intro l
  induction l with
  | nil => rfl
  | cons a l ih =>
      by_cases hq : q a = true
      · rw [List.filter_cons_of_pos hq]
        by_cases hp : p a = true
        · rw [List.countP_cons_of_pos _ _ hp, List.countP_cons_of_pos _ _ hp, ih]
        · rw [List.countP_cons_of_neg _ _ hp, List.countP_cons_of_neg _ _ hp, ih]
      · rw [List.filter_cons_of_neg hq]
        have hp : ¬p a = true := fun hpa => hq (h a hpa)
        rw [List.countP_cons_of_neg _ _ hp, ih]

theorem level_mono (min stride : ℚ) (hstride : 0 ≤ stride) {i j : ℕ} (hij : i ≤ j) :
    level min stride i ≤ level min stride j := by
  unfold level
  have : (i : ℚ) ≤ (j : ℚ) := by exact_mod_cast hij
  nlinarith

theorem histoGo_getD_head (min stride : ℚ) (k : ℕ) (rest : List ℚ) (i : ℕ)
    (hs : rest.Sorted (· ≤ ·)) :
    (histoGo min stride rest i (k + 1)).getD 0 0 =
      rest.countP (fun x => x < level min stride i) := by
  rw [histoGo]
  simpa using takeWhile_lt_length_sorted (level min stride i) rest hs

theorem histoGo_getD_middle (min stride : ℚ) (hstride : 0 ≤ stride) :
    ∀ (j k : ℕ) (rest : List ℚ) (i : ℕ), j < k → rest.Sorted (· ≤ ·) →
      (histoGo min stride rest i (k + 1)).getD (j + 1) 0 =
        rest.countP
          (fun x => level min stride (i + j) ≤ x ∧ x < level min stride (i + j + 1)) := by
  intro j
  induction j with
  | zero =>
      intro k rest i hk hs
      obtain ⟨k', rfl⟩ : ∃ k', k = k' + 1 := ⟨k - 1, by omega⟩
      rw [histoGo]
      rw [List.getD_cons_succ]
      rw [dropWhile_lt_sorted _ _ hs]
      rw [histoGo_getD_head min stride k' _ (i + 1) (hs.filter _)]
      rw [List.countP_filter]
      refine List.countP_congr ?_
      intro x _
      simp only [Nat.add_zero, decide_eq_true_eq, Bool.and_eq_true, decide_eq_decide]
      tauto
  | succ j ih =>
      intro k rest i hk hs
      obtain ⟨k', rfl⟩ : ∃ k', k = k' + 1 := ⟨k - 1, by omega⟩
      rw [histoGo]
      rw [List.getD_cons_succ]
      rw [dropWhile_lt_sorted _ _ hs]
      rw [ih k' _ (i + 1) (by omega) (hs.filter _)]
      have hidx : i + 1 + j = i + (j + 1) := by omega
      rw [hidx]
      refine countP_filter_of_imp _ _ ?_ rest
      intro x hx
      simp only [decide_eq_true_eq] at hx ⊢
      exact le_trans (level_mono min stride hstride (by omega : i ≤ i + (j + 1))) hx.1

theorem histoGo_getD_last (min stride : ℚ) (hstride : 0 ≤ stride) :
    ∀ (k : ℕ) (rest : List ℚ) (i : ℕ), rest.Sorted (· ≤ ·) →
      (histoGo min stride rest i (k + 1)).getD (k + 1) 0 =
        rest.countP (fun x => level min stride (i + k) ≤ x) := by
  intro k
  induction k with
  | zero =>
      intro rest i hs
      rw [histoGo]
      rw [List.getD_cons_succ]
      rw [dropWhile_lt_sorted _ _ hs]
      show (histoGo min stride _ (i + 1) 0).getD 0 0 = _
      rw [histoGo]
      rw [List.getD_cons_zero]
      rw [List.countP_eq_length_filter]
      rw [Nat.add_zero]
  | succ k ih =>
      intro rest i hs
      rw [histoGo]
      rw [List.getD_cons_succ]
      rw [dropWhile_lt_sorted _ _ hs]
      rw [ih _ (i + 1) (hs.filter _)]
      have hidx : i + 1 + k = i + (k + 1) := by omega
      rw [hidx]
      refine countP_filter_of_imp _ _ ?_ rest
      intro x hx
      simp only [decide_eq_true_eq] at hx ⊢
      exact le_trans (level_mono min stride hstride (by omega : i ≤ i + (k + 1))) hx

/-- Claim C3: on a sorted sample list and a window with positive stride,
`compute_histogram` returns `bins + 2` entries whose entry `0` counts the
samples strictly below `min`, whose entry `j` (for `1 ≤ j ≤ bins`) counts
the samples in `[min + (j-1)*stride, min + j*stride)`, and whose entry
`bins + 1` counts the samples at or above `min + bins*stride`. -/
theorem claim_C3_histogram_entry_semantics (data : List ℚ) (min stride : ℚ) (bins : ℕ)
    (hs : data.Sorted (· ≤ ·)) (hstride : 0 < stride) :
    (compute_histogram data min stride bins).length = bins + 2 ∧
    (compute_histogram data min stride bins).getD 0 0 =
      data.countP (fun x => x < min) ∧
    (∀ j : ℕ, 1 ≤ j → j ≤ bins →
      (compute_histogram data min stride bins).getD j 0 =
        data.countP
          (fun x => min + stride * ((j - 1 : ℕ) : ℚ) ≤ x ∧ x < min + stride * (j : ℚ))) ∧
    (compute_histogram data min stride bins).getD (bins + 1) 0 =
      data.countP (fun x => min + stride * (bins : ℚ) ≤ x) := by
  refine ⟨compute_histogram_length data min stride bins, ?_, ?_, ?_⟩
  · rw [compute_histogram, histoGo_getD_head min stride bins data 0 hs]
    refine List.countP_congr ?_
    intro x _
    simp [level]
  · intro j hj1 hjb
    obtain ⟨j', rfl⟩ : ∃ j', j = j' + 1 := ⟨j - 1, by omega⟩
    rw [compute_histogram, histoGo_getD_middle min stride (le_of_lt hstride) j' bins data 0
      (by omega) hs]
    refine List.countP_congr ?_
    intro x _
    simp [level]
  · rw [compute_histogram, histoGo_getD_last min stride (le_of_lt hstride) bins data 0 hs]
    refine List.countP_congr ?_
    intro x _
    simp [level]

/-- `std::reduce` over the bin vector with `int64_t{}` and `std::max`:
the largest entry (`most` in `fit_histogram`, and the denominator of the
renderer's scale factor). -/
def mostBin (histo : List ℕ) : ℕ := histo.foldl (fun a b => max a b) 0

/-- The trim threshold `static_cast<int64_t>(most * count_thresh_frac)`;
for the non-negative products that occur here the C++ truncating cast
agrees with the floor (`Rat.floor`, used here because it evaluates by
kernel reduction; `fitThresh_eq_floor` relates it to `Int.floor`). -/
def fitThresh (most : ℕ) (frac : ℚ) : ℤ := Rat.floor ((most : ℚ) * frac)

theorem fitThresh_eq_floor (most : ℕ) (frac : ℚ) :
    fitThresh most frac = Int.floor ((most : ℚ) * frac) := by
  rw [fitThresh, Rat.floor_def', ← Rat.floor_def]

/-- The `min_level` loop of `fit_histogram`:
`while (min_level < bins + 1 && histo[min_level] < thresh) ++min_level;`.
The fuel argument bounds the iteration count; starting from level `1`
with fuel `bins` the loop always stops on its own guard first. -/
def minLevelGo (histo : List ℕ) (bins : ℕ) (thresh : ℤ) : ℕ → ℕ → ℕ
  | l, 0 => l
  | l, fuel + 1 =>
      if l < bins + 1 ∧ ((histo.getD l 0 : ℤ) < thresh) then
        minLevelGo histo bins thresh (l + 1) fuel
      else l

/-- The `max_level` loop of `fit_histogram`:
`while (max_level > min_level && histo[max_level] < thresh) --max_level;`. -/
def maxLevelGo (histo : List ℕ) (thresh : ℤ) (minL : ℕ) : ℕ → ℕ → ℕ
  | l, 0 => l
  | l, fuel + 1 =>
      if minL < l ∧ ((histo.getD l 0 : ℤ) < thresh) then
        maxLevelGo histo thresh minL (l - 1) fuel
      else l

/-- The value of `min_level` after the first trimming loop of
`fit_histogram`. -/
def fitMinLevel (data : List ℚ) (min stride : ℚ) (bins : ℕ) (frac : ℚ) : ℕ :=
  minLevelGo (compute_histogram data min stride bins) bins
    (fitThresh (mostBin (compute_histogram data min stride bins)) frac) 1 bins

/-- The value of `max_level` after the second trimming loop of
`fit_histogram`. -/
def fitMaxLevel (data : List ℚ) (min stride : ℚ) (bins : ℕ) (frac : ℚ) : ℕ :=
  maxLevelGo (compute_histogram data min stride bins)
    (fitThresh (mostBin (compute_histogram data min stride bins)) frac)
    (fitMinLevel data min stride bins frac) (bins + 1) (bins + 1)

/-- `fit_histogram(data, min, stride, bins, count_thresh_frac)`: compute
the histogram, trim sparse edge bins against the threshold, recompute
`max = min + stride * (max_level + 1)`, `min = min + stride * min_level`,
`stride = (max - min) / bins`, and return the updated `min`, `stride`
(the C++ code writes them back through reference parameters) together
with the histogram recomputed on the new window. -/
def fit_histogram (data : List ℚ) (min stride : ℚ) (bins : ℕ) (frac : ℚ) :
    ℚ × ℚ × List ℕ :=
  let minL := fitMinLevel data min stride bins frac
  let maxL := fitMaxLevel data min stride bins frac
  let max := min + stride * ((maxL : ℚ) + 1)
  let newMin := min + stride * (minL : ℚ)
  let newStride := (max - newMin) / (bins : ℚ)
  (newMin, newStride, compute_histogram data newMin newStride bins)

theorem minLevelGo_bounds (histo : List ℕ) (bins : ℕ) (thresh : ℤ) :
    ∀ (fuel l : ℕ), l ≤ bins + 1 →
      l ≤ minLevelGo histo bins thresh l fuel ∧
        minLevelGo histo bins thresh l fuel ≤ bins + 1 := by
  intro fuel
  induction fuel with
  | zero => intro l hl; exact ⟨le_refl l, hl⟩
  | succ fuel ih =>
      intro l hl
      rw [minLevelGo]
      by_cases hg : l < bins + 1 ∧ ((histo.getD l 0 : ℤ) < thresh)
      · rw [if_pos hg]
        rcases ih (l + 1) (by omega) with ⟨h1, h2⟩
        exact ⟨by omega, h2⟩
      · rw [if_neg hg]
        exact ⟨le_refl l, hl⟩

theorem maxLevelGo_bounds (histo : List ℕ) (thresh : ℤ) (minL : ℕ) :
    ∀ (fuel l : ℕ), minL ≤ l →
      minL ≤ maxLevelGo histo thresh minL l fuel ∧
        maxLevelGo histo thresh minL l fuel ≤ l := by
  intro fuel
  induction fuel with
  | zero => intro l hl; exact ⟨hl, le_refl l⟩
  | succ fuel ih =>
      intro l hl
      rw [maxLevelGo]
      by_cases hg : minL < l ∧ ((histo.getD l 0 : ℤ) < thresh)
      · rw [if_pos hg]
        rcases ih (l - 1) (by omega) with ⟨h1, h2⟩
        exact ⟨h1, by omega⟩
      · rw [if_neg hg]
        exact ⟨hl, le_refl l⟩

theorem fitMinLevel_bounds (data : List ℚ) (min stride : ℚ) (bins : ℕ) (frac : ℚ) :
    1 ≤ fitMinLevel data min stride bins frac ∧
      fitMinLevel data min stride bins frac ≤ bins + 1 :=
  minLevelGo_bounds _ _ _ bins 1 (by omega)

theorem fitMaxLevel_bounds (data : List ℚ) (min stride : ℚ) (bins : ℕ) (frac : ℚ) :
    fitMinLevel data min stride bins frac ≤ fitMaxLevel data min stride bins frac ∧
      fitMaxLevel data min stride bins frac ≤ bins + 1 :=
  maxLevelGo_bounds _ _ _ (bins + 1) (bins + 1)
    (fitMinLevel_bounds data min stride bins frac).2

/-- Claim C4: the trimming loops of `fit_histogram` keep
`1 ≤ min_level ≤ max_level ≤ bins + 1`, so (for a real window, `stride > 0`
and `bins ≥ 1`) the recomputed stride is positive — the window is never
empty or inverted — and the returned histogram still has `bins + 2`
entries. -/
theorem claim_C4_fit_never_collapses (data : List ℚ) (min stride : ℚ) (bins : ℕ)
    (frac : ℚ) (hstride : 0 < stride) (hbins : 1 ≤ bins)
    (hfrac0 : 0 ≤ frac) (hfrac1 : frac ≤ 1) :
    1 ≤ fitMinLevel data min stride bins frac ∧
    fitMinLevel data min stride bins frac ≤ fitMaxLevel data min stride bins frac ∧
    fitMaxLevel data min stride bins frac ≤ bins + 1 ∧
    0 < (fit_histogram data min stride bins frac).2.1 ∧
    (fit_histogram data min stride bins frac).2.2.length = bins + 2 := by
  refine ⟨(fitMinLevel_bounds data min stride bins frac).1,
    (fitMaxLevel_bounds data min stride bins frac).1,
    (fitMaxLevel_bounds data min stride bins frac).2, ?_, ?_⟩
  · show 0 < (min + stride * ((fitMaxLevel data min stride bins frac : ℚ) + 1) -
        (min + stride * (fitMinLevel data min stride bins frac : ℚ))) / (bins : ℚ)
    have hml : ((fitMinLevel data min stride bins frac : ℚ)) ≤
        (fitMaxLevel data min stride bins frac : ℚ) := by
      exact_mod_cast (fitMaxLevel_bounds data min stride bins frac).1
    have hb : (0 : ℚ) < (bins : ℚ) := by exact_mod_cast hbins
    apply div_pos ?_ hb
    nlinarith
  · exact compute_histogram_length data _ _ bins

/-- Claim C1 counterexample: on the sorted samples `[1/2, 3/2]` with
window `min = 0`, `stride = 1`, `bins = 2` and threshold fraction `1`,
the trimming loops stop at `min_level = 1` and `max_level = 2`, yet the
recomputed window starts at `1`, not at the trimmed low boundary
`min + stride * (min_level - 1) = 0`, and ends at `3`, not at the
trimmed high boundary `min + stride * max_level = 2`: the recomputed
window sits one stride above both trimmed boundaries. -/
theorem claim_C1_counterexample :
    fitMinLevel [(1 : ℚ)/2, 3/2] 0 1 2 1 = 1 ∧
    fitMaxLevel [(1 : ℚ)/2, 3/2] 0 1 2 1 = 2 ∧
    (fit_histogram [(1 : ℚ)/2, 3/2] 0 1 2 1).1 ≠
      0 + 1 * (((fitMinLevel [(1 : ℚ)/2, 3/2] 0 1 2 1 : ℚ)) - 1) ∧
    (fit_histogram [(1 : ℚ)/2, 3/2] 0 1 2 1).1 +
        2 * (fit_histogram [(1 : ℚ)/2, 3/2] 0 1 2 1).2.1 ≠
      0 + 1 * ((fitMaxLevel [(1 : ℚ)/2, 3/2] 0 1 2 1 : ℚ)) := by
  norm_num [fit_histogram, fitMinLevel, fitMaxLevel, fitThresh_eq_floor, minLevelGo,
    maxLevelGo, compute_histogram, histoGo, level, mostBin,
    List.takeWhile, List.dropWhile]

/-- Claim C1 (amended): `fit_histogram` recomputes the window as the code
does — `new_min = min + stride * min_level` and
`new_max = min + stride * (max_level + 1)`, one stride above the low and
high boundaries of the first and last kept bins — with
`new_stride = (new_max - new_min) / bins`, and the recomputed histogram
over that window keeps `bins + 2` entries, i.e. the bin count equals the
input `bins` argument. -/
theorem claim_C1_fit_window_arithmetic (data : List ℚ) (min stride : ℚ) (bins : ℕ)
    (frac : ℚ) :
    (fit_histogram data min stride bins frac).1 =
      min + stride * (fitMinLevel data min stride bins frac : ℚ) ∧
    (fit_histogram data min stride bins frac).2.1 =
      (min + stride * ((fitMaxLevel data min stride bins frac : ℚ) + 1) -
        (min + stride * (fitMinLevel data min stride bins frac : ℚ))) / (bins : ℚ) ∧
    (fit_histogram data min stride bins frac).2.2 =
      compute_histogram data (fit_histogram data min stride bins frac).1
        (fit_histogram data min stride bins frac).2.1 bins ∧
    (fit_histogram data min stride bins frac).2.2.length = bins + 2 :=
  ⟨rfl, rfl, rfl, compute_histogram_length data _ _ bins⟩

/-- The index `compute_percentiles` reads for one request `p` on a
sequence of length `n`: after `p = std::clamp(p, 0, 100)` the code
computes `(p == 100) ? (data.size() - 1) : (p * data.size() / 100)` in
`size_t` arithmetic, modelled with an explicit `% 2 ^ 64`; for `p == 100`
on an empty vector the subtraction wraps around to `2 ^ 64 - 1`. -/
def percentile_index (n : ℕ) (p : ℤ) : ℕ :=
  let q := max 0 (min p 100)
  if q = 100 then (n + 2 ^ 64 - 1) % 2 ^ 64
  else q.toNat * n % 2 ^ 64 / 100

/-- `compute_percentiles(data, percentiles)` from the statistics helpers:
one nearest-rank selection `data[idx]` per request, pushed in request
order.  The out-of-range read possible for empty `data` (C++ UB) is
modelled with `getD` default `0`. -/
def compute_percentiles (data : List ℚ) (ps : List ℤ) : List ℚ :=
  ps.map (fun p => data.getD (percentile_index data.length p) 0)

theorem pow64_value : (2 : ℕ) ^ 64 = 18446744073709551616 := by norm_num

theorem percentile_index_eq (n : ℕ) (p : ℤ) (hn : n ≠ 0)
    (hsz : 100 * n < 2 ^ 64) :
    percentile_index n p =
      if max 0 (min p 100) = 100 then n - 1
      else (max 0 (min p 100)).toNat * n / 100 := by
  rw [percentile_index]
  rw [pow64_value] at hsz ⊢
  by_cases hq : max 0 (min p 100) = 100
  · rw [if_pos hq, if_pos hq]
    omega
  · rw [if_neg hq, if_neg hq]
    have hq99 : (max 0 (min p 100)).toNat ≤ 99 := by omega
    have hlt : (max 0 (min p 100)).toNat * n < 18446744073709551616 := by
      have : (max 0 (min p 100)).toNat * n ≤ 99 * n := Nat.mul_le_mul_right n hq99
      omega
    rw [Nat.mod_eq_of_lt hlt]

theorem percentile_index_lt (n : ℕ) (p : ℤ) (hn : n ≠ 0)
    (hsz : 100 * n < 2 ^ 64) : percentile_index n p < n := by
  rw [percentile_index_eq n p hn hsz]
  by_cases hq : max 0 (min p 100) = 100
  · rw [if_pos hq]; omega
  · rw [if_neg hq]
    have hq99 : (max 0 (min p 100)).toNat ≤ 99 := by omega
    have : (max 0 (min p 100)).toNat * n ≤ 99 * n := Nat.mul_le_mul_right n hq99
    rw [Nat.div_lt_iff_lt_mul (by norm_num : 0 < 100)]
    have hn1 : 1 ≤ n := by omega
    calc (max 0 (min p 100)).toNat * n ≤ 99 * n := this
      _ < 100 * n := by omega
      _ = n * 100 := by ring

/-- Claim C10: for a non-empty sample sequence (of any realizable size,
`100 * n < 2^64` ruling out `size_t` overflow of `p * n`), every index
`compute_percentiles` computes is strictly below `n`, so the selection is
in bounds; and on the empty sequence a request of `100` computes
`size - 1` in `size_t`, which wraps around to `2^64 - 1` — non-emptiness
is a necessary precondition. -/
theorem claim_C10_percentile_index_safety (n : ℕ) (p : ℤ) (hn : n ≠ 0)
    (hsz : 100 * n < 2 ^ 64) :
    percentile_index n p < n ∧ percentile_index 0 100 = 2 ^ 64 - 1 := by
  refine ⟨percentile_index_lt n p hn hsz, ?_⟩
  rw [percentile_index]
  norm_num

/-- Claim C6: `compute_percentiles` returns one value per request, in
request order; each request `p` is clamped to `[0, 100]`, and the
selected value is `data[n-1]` if the clamped request is `100` and
`data[floor(p * n / 100)]` otherwise — always an actual sample value,
never an interpolation. -/
theorem claim_C6_percentiles_nearest_rank (data : List ℚ) (ps : List ℤ)
    (hne : data ≠ []) (hsz : 100 * data.length < 2 ^ 64) :
    (compute_percentiles data ps).length = ps.length ∧
    (∀ k : ℕ, k < ps.length →
      (compute_percentiles data ps).getD k 0 =
        (if max 0 (min (ps.getD k 0) 100) = 100 then data.getD (data.length - 1) 0
         else data.getD ((max 0 (min (ps.getD k 0) 100)).toNat * data.length / 100) 0)) ∧
    (∀ v ∈ compute_percentiles data ps, v ∈ data) := by
  have hn : data.length ≠ 0 := by
    intro h; exact hne (List.length_eq_zero.mp h)
  refine ⟨List.length_map ps _, ?_, ?_⟩
  · intro k hk
    rw [compute_percentiles]
    rw [List.getD_eq_getElem?_getD, List.getElem?_map,
      List.getElem?_eq_getElem hk]
    have hps : ps[k] = ps.getD k 0 := by
      rw [List.getD_eq_getElem?_getD, List.getElem?_eq_getElem hk, Option.getD_some]
    simp only [Option.map_some', Option.getD_some, hps]
    rw [percentile_index_eq data.length _ hn hsz]
    exact apply_ite (fun i => data.getD i 0) _ _ _
  · intro v hv
    rw [compute_percentiles, List.mem_map] at hv
    obtain ⟨p, hp, rfl⟩ := hv
    have hidx := percentile_index_lt data.length p hn hsz
    rw [List.getD_eq_getElem?_getD, List.getElem?_eq_getElem hidx, Option.getD_some]
    exact List.getElem_mem hidx

/-- `compute_noise(data, sum)` from the statistics helpers, over exact
reals, with `EReal` as result type so that the `+infinity` the code
returns for undersized sample sets is representable: if the sample count
is below 5 return `⊤`; otherwise return
`sqrt(Σ (val - mean)² / (num - 1)) / mean` with `mean = sum / num`, the
relative unbiased sample standard deviation. -/
noncomputable def compute_noise (data : List ℝ) (sum : ℝ) : EReal :=
  if data.length < 5 then ⊤
  else
    let num : ℝ := data.length
    let mean := sum / num
    let variance := (data.map (fun val => (val - mean) * (val - mean))).sum / (num - 1)
    ((Real.sqrt variance / mean : ℝ) : EReal)

/-- Claim C5: `compute_noise` returns `+infinity` for fewer than 5
samples, and returns the relative unbiased standard deviation otherwise;
in particular on any sequence of at least 5 all-equal values, with `sum`
their actual sum, it returns `0` (zero variance). -/
theorem claim_C5_noise_policy (data : List ℝ) (sum : ℝ) :
    (data.length < 5 → compute_noise data sum = ⊤) ∧
    (5 ≤ data.length →
      ∀ c : ℝ, (∀ x ∈ data, x = c) → sum = data.sum →
        compute_noise data sum = ((0 : ℝ) : EReal)) := by
  constructor
  · intro h
    rw [compute_noise, if_pos h]
  · intro hlen c hall hsum
    rw [compute_noise, if_neg (by omega)]
    have hn : (data.length : ℝ) ≠ 0 := by
      have : data.length ≠ 0 := by omega
      exact_mod_cast this
    have hmean : sum / (data.length : ℝ) = c := by
      rw [hsum, List.sum_eq_card_nsmul data c hall, nsmul_eq_mul]
      field_simp
    have hzero : (data.map (fun val =>
        (val - sum / (data.length : ℝ)) * (val - sum / (data.length : ℝ)))).sum = 0 := by
      apply List.sum_eq_zero
      intro y hy
      rw [List.mem_map] at hy
      obtain ⟨x, hx, rfl⟩ := hy
      rw [hall x hx, hmean, sub_self, mul_zero]
    simp only [hzero, zero_div, Real.sqrt_zero]

/-- `m_num_rows` of `histogram_printer`, fixed at 10. -/
def num_rows : ℕ := 10

theorem num_rows_eq : num_rows = 10 := rfl

/-- `m_num_bins = bins.size() - 2` (the two sentinel slots hold the
underflow and overflow counts). -/
def num_bins (bins : List ℕ) : ℕ := bins.length - 2

/-- `m_scale_factor = 1 / reduce(bins, int64_t{}, max)`: one over the
size of the fullest bin, sentinel slots included. -/
def scale_factor (bins : List ℕ) : ℚ := 1 / (mostBin bins : ℚ)

/-- `scaled_value = bins[bin + 1] * m_scale_factor` in `render_bin`
(`+1` skips the underflow slot). -/
def scaled_value (bins : List ℕ) (bin : ℕ) : ℚ :=
  (bins.getD (bin + 1) 0 : ℚ) * scale_factor bins

/-- `num_full = static_cast<size_t>(scaled_value * m_num_rows)`; the
value is non-negative, so the truncating cast is the floor. -/
def num_full_of (bins : List ℕ) (bin : ℕ) : ℕ :=
  (Rat.floor (scaled_value bins bin * (num_rows : ℚ))).toNat

/-- `eighths = static_cast<uint8_t>(std::fmod(scaled_value, 1.f) * 8)`;
for the non-negative `scaled_value`, `fmod(x, 1) = x - floor(x)` and the
product lies in `[0, 8)`, so the truncating cast is again the floor. -/
def eighths_of (bins : List ℕ) (bin : ℕ) : ℕ :=
  (Rat.floor ((scaled_value bins bin - (Rat.floor (scaled_value bins bin) : ℚ)) * 8)).toNat

/-- `write_element(bin, row, eighths)`: chart row 0 is stored last, so
the write lands at offset `(m_num_rows - row - 1) * m_num_bins + bin`. -/
def write_element (nb : ℕ) (chart : List ℕ) (bin row e : ℕ) : List ℕ :=
  chart.set ((num_rows - row - 1) * nb + bin) e

/-- `render_bin(bin)`: `num_full` filled rows (level 8), then one
partial row at `eighths` when `num_full < m_num_rows`. -/
def render_bin (bins : List ℕ) (chart : List ℕ) (bin : ℕ) : List ℕ :=
  let nf := num_full_of bins bin
  let filled := (List.range nf).foldl
    (fun c row => write_element (num_bins bins) c bin row 8) chart
  if nf < num_rows then
    write_element (num_bins bins) filled bin nf (eighths_of bins bin)
  else filled

/-- `m_chart(m_num_bins * m_num_rows, 0)`: the zero-initialised chart
buffer. -/
def chart0 (bins : List ℕ) : List ℕ := List.replicate (num_bins bins * num_rows) 0

/-- The chart buffer after `render()` has called `render_bin` on every
bin column. -/
def render_chart (bins : List ℕ) : List ℕ :=
  (List.range (num_bins bins)).foldl (render_bin bins) (chart0 bins)

/-- The fill level of chart cell `(bin, row)` (row 0 at the bottom),
read back from the buffer at the offset `write_element` uses. -/
def chart_cell (nb : ℕ) (chart : List ℕ) (bin row : ℕ) : ℕ :=
  chart.getD ((num_rows - row - 1) * nb + bin) 0

theorem ratFloor_eq (q : ℚ) : Rat.floor q = Int.floor q := by
  rw [Rat.floor_def', ← Rat.floor_def]

theorem offset_lt (nb bin row : ℕ) (hb : bin < nb) :
    (num_rows - row - 1) * nb + bin < nb * num_rows := by
  have h9 : num_rows - row - 1 ≤ 9 := by rw [num_rows_eq]; omega
  calc (num_rows - row - 1) * nb + bin
      ≤ 9 * nb + bin := Nat.add_le_add_right (Nat.mul_le_mul_right nb h9) bin
    _ < 9 * nb + nb := by omega
    _ = nb * 10 := by ring
    _ = nb * num_rows := by rw [num_rows_eq]

theorem offset_inj (nb bin bin' row row' : ℕ) (hb : bin < nb) (hb' : bin' < nb)
    (hr : row < num_rows) (hr' : row' < num_rows)
    (h : (num_rows - row - 1) * nb + bin = (num_rows - row' - 1) * nb + bin') :
    bin = bin' ∧ row = row' := by
  have e1 : ((num_rows - row - 1) * nb + bin) % nb = bin % nb := by
    rw [Nat.mul_comm, Nat.mul_add_mod]
  have e2 : ((num_rows - row' - 1) * nb + bin') % nb = bin' % nb := by
    rw [Nat.mul_comm, Nat.mul_add_mod]
  have hbin : bin = bin' := by
    have hmod := congrArg (· % nb) h
    simp only [e1, e2, Nat.mod_eq_of_lt hb, Nat.mod_eq_of_lt hb'] at hmod
    exact hmod
  refine ⟨hbin, ?_⟩
  have hcoeff : (num_rows - row - 1) * nb = (num_rows - row' - 1) * nb := by omega
  have hnb : 0 < nb := by omega
  have := Nat.eq_of_mul_eq_mul_right hnb hcoeff
  rw [num_rows_eq] at this hr hr'
  omega

theorem offset_ne_of_bin_ne (nb bin bin' row row' : ℕ) (hb : bin < nb) (hb' : bin' < nb)
    (hbin : bin ≠ bin') :
    (num_rows - row - 1) * nb + bin ≠ (num_rows - row' - 1) * nb + bin' := by
  intro h
  apply hbin
  have e1 : ((num_rows - row - 1) * nb + bin) % nb = bin % nb := by
    rw [Nat.mul_comm, Nat.mul_add_mod]
  have e2 : ((num_rows - row' - 1) * nb + bin') % nb = bin' % nb := by
    rw [Nat.mul_comm, Nat.mul_add_mod]
  have hmod := congrArg (· % nb) h
  simp only [e1, e2, Nat.mod_eq_of_lt hb, Nat.mod_eq_of_lt hb'] at hmod
  exact hmod

theorem write_element_length (nb : ℕ) (c : List ℕ) (bin row e : ℕ) :
    (write_element nb c bin row e).length = c.length := by
  rw [write_element, List.length_set]

theorem chart_cell_write_same (nb : ℕ) (c : List ℕ) (bin row e : ℕ) (hb : bin < nb)
    (hlen : c.length = nb * num_rows) :
    chart_cell nb (write_element nb c bin row e) bin row = e := by
  rw [chart_cell, write_element, List.getD_eq_getElem?_getD,
    List.getElem?_set_self (by rw [hlen]; exact offset_lt nb bin row hb),
    Option.getD_some]

theorem chart_cell_write_other (nb : ℕ) (c : List ℕ) (bin row e bin' row' : ℕ)
    (hb : bin < nb) (hb' : bin' < nb) (hr : row < num_rows) (hr' : row' < num_rows)
    (hne : ¬(bin = bin' ∧ row = row')) :
    chart_cell nb (write_element nb c bin row e) bin' row' = chart_cell nb c bin' row' := by
  rw [chart_cell, write_element, chart_cell, List.getD_eq_getElem?_getD,
    List.getElem?_set_ne, ← List.getD_eq_getElem?_getD]
  intro h
  exact hne (offset_inj nb bin bin' row row' hb hb' hr hr' h)

theorem chart_cell_write_ne_bin (nb : ℕ) (c : List ℕ) (bin row e bin' row' : ℕ)
    (hb : bin < nb) (hb' : bin' < nb) (hbin : bin ≠ bin') :
    chart_cell nb (write_element nb c bin row e) bin' row' = chart_cell nb c bin' row' := by
  rw [chart_cell, write_element, chart_cell, List.getD_eq_getElem?_getD,
    List.getElem?_set_ne (offset_ne_of_bin_ne nb bin bin' row row' hb hb' hbin),
    ← List.getD_eq_getElem?_getD]

theorem le_foldl_max (l : List ℕ) : ∀ a : ℕ, a ≤ l.foldl (fun x y => max x y) a := by
  induction l with
  | nil => intro a; exact le_refl a
  | cons b l ih =>
      intro a
      exact le_trans (le_max_left a b) (ih (max a b))

theorem mem_le_foldl_max (l : List ℕ) : ∀ (a b : ℕ), b ∈ l →
    b ≤ l.foldl (fun x y => max x y) a := by
  induction l with
  | nil => intro a b hb; cases hb
  | cons x l ih =>
      intro a b hb
      rcases List.mem_cons.mp hb with rfl | hb'
      · exact le_trans (le_max_right a b) (le_foldl_max l (max a b))
      · exact ih (max a x) b hb'

theorem getD_le_mostBin (bins : List ℕ) (i : ℕ) : bins.getD i 0 ≤ mostBin bins := by
  rcases Nat.lt_or_ge i bins.length with h | h
  · rw [List.getD_eq_getElem?_getD, List.getElem?_eq_getElem h, Option.getD_some]
    exact mem_le_foldl_max bins 0 _ (List.getElem_mem h)
  · rw [List.getD_eq_getElem?_getD, List.getElem?_eq_none h, Option.getD_none]
    exact Nat.zero_le _

theorem mostBin_pos (bins : List ℕ) (h : ∃ b ∈ bins, b ≠ 0) : 1 ≤ mostBin bins := by
  obtain ⟨b, hb, hbne⟩ := h
  exact le_trans (by omega) (mem_le_foldl_max bins 0 b hb)

theorem scaled_value_nonneg (bins : List ℕ) (bin : ℕ) : 0 ≤ scaled_value bins bin := by
  rw [scaled_value, scale_factor]
  positivity

theorem scaled_value_le_one (bins : List ℕ) (bin : ℕ) (h : ∃ b ∈ bins, b ≠ 0) :
    scaled_value bins bin ≤ 1 := by
  rw [scaled_value, scale_factor, mul_one_div]
  have hpos : (0 : ℚ) < (mostBin bins : ℚ) := by
    exact_mod_cast mostBin_pos bins h
  rw [div_le_one hpos]
  exact_mod_cast getD_le_mostBin bins (bin + 1)

theorem num_full_le (bins : List ℕ) (bin : ℕ) (h : ∃ b ∈ bins, b ≠ 0) :
    num_full_of bins bin ≤ num_rows := by
  rw [num_full_of, ratFloor_eq]
  have hle : scaled_value bins bin * (num_rows : ℚ) ≤ (num_rows : ℚ) := by
    have h1 := scaled_value_le_one bins bin h
    have h0 : (0 : ℚ) ≤ (num_rows : ℚ) := by positivity
    nlinarith
  have : Int.floor (scaled_value bins bin * (num_rows : ℚ)) ≤ (num_rows : ℤ) := by
    calc Int.floor (scaled_value bins bin * (num_rows : ℚ))
        ≤ Int.floor ((num_rows : ℚ)) := Int.floor_le_floor hle
      _ = (num_rows : ℤ) := by exact_mod_cast Int.floor_natCast num_rows
  omega

theorem foldl_write_length (nb bin : ℕ) :
    ∀ (l : List ℕ) (c : List ℕ),
      (l.foldl (fun c row => write_element nb c bin row 8) c).length = c.length := by
  intro l
  induction l with
  | nil => intro c; rfl
  | cons r l ih => intro c; rw [List.foldl_cons, ih, write_element_length]

theorem renderFill_cell (nb bin : ℕ) (hb : bin < nb) :
    ∀ (k : ℕ) (c : List ℕ), c.length = nb * num_rows → k ≤ num_rows →
      ∀ row : ℕ, row < num_rows →
        chart_cell nb ((List.range k).foldl (fun c r => write_element nb c bin r 8) c) bin row
          = if row < k then 8 else chart_cell nb c bin row := by
  intro k
  induction k with
  | zero =>
      intro c hlen hk row hr
      rw [List.range_zero, List.foldl_nil, if_neg (by omega)]
  | succ k ih =>
      intro c hlen hk row hr
      rw [List.range_succ, List.foldl_append, List.foldl_cons, List.foldl_nil]
      have hlen' : ((List.range k).foldl (fun c r => write_element nb c bin r 8) c).length
          = nb * num_rows := by rw [foldl_write_length]; exact hlen
      by_cases hrk : row = k
      · subst hrk
        rw [chart_cell_write_same nb _ bin row 8 hb hlen', if_pos (by omega)]
      · rw [chart_cell_write_other nb _ bin k 8 bin row hb hb (by omega) hr (by tauto),
          ih c hlen (by omega) row hr]
        by_cases h2 : row < k
        · rw [if_pos h2, if_pos (by omega)]
        · rw [if_neg h2, if_neg (by omega)]

theorem renderFill_frame (nb bin bin' : ℕ) (hb : bin < nb) (hb' : bin' < nb)
    (hbin : bin ≠ bin') :
    ∀ (l : List ℕ) (c : List ℕ) (row' : ℕ),
      chart_cell nb (l.foldl (fun c r => write_element nb c bin r 8) c) bin' row'
        = chart_cell nb c bin' row' := by
  intro l
  induction l with
  | nil => intro c row'; rfl
  | cons r l ih =>
      intro c row'
      rw [List.foldl_cons, ih, chart_cell_write_ne_bin nb c bin r 8 bin' row' hb hb' hbin]

theorem render_bin_length (bins : List ℕ) (c : List ℕ) (bin : ℕ) :
    (render_bin bins c bin).length = c.length := by
  simp only [render_bin]
  split
  · rw [write_element_length, foldl_write_length]
  · rw [foldl_write_length]

theorem render_bin_cell_self (bins : List ℕ) (c : List ℕ) (bin row : ℕ)
    (hlen : c.length = num_bins bins * num_rows) (hb : bin < num_bins bins)
    (hnf : num_full_of bins bin ≤ num_rows) (hr : row < num_rows) :
    chart_cell (num_bins bins) (render_bin bins c bin) bin row =
      if row < num_full_of bins bin then 8
      else if row = num_full_of bins bin then eighths_of bins bin
      else chart_cell (num_bins bins) c bin row := by
  simp only [render_bin]
  by_cases hlt : num_full_of bins bin < num_rows
  · rw [if_pos hlt]
    have hlenf : ((List.range (num_full_of bins bin)).foldl
        (fun c r => write_element (num_bins bins) c bin r 8) c).length
          = num_bins bins * num_rows := by rw [foldl_write_length]; exact hlen
    by_cases hrnf : row = num_full_of bins bin
    · rw [hrnf]
      rw [chart_cell_write_same (num_bins bins) _ bin (num_full_of bins bin)
          (eighths_of bins bin) hb hlenf,
        if_neg (lt_irrefl _), if_pos rfl]
    · rw [chart_cell_write_other (num_bins bins) _ bin (num_full_of bins bin)
          (eighths_of bins bin) bin row hb hb hlt hr (by tauto),
        renderFill_cell (num_bins bins) bin hb (num_full_of bins bin) c hlen
          (le_of_lt hlt) row hr]
      by_cases h2 : row < num_full_of bins bin
      · rw [if_pos h2, if_pos h2]
      · rw [if_neg h2, if_neg h2, if_neg hrnf]
  · rw [if_neg hlt]
    rw [renderFill_cell (num_bins bins) bin hb (num_full_of bins bin) c hlen hnf row hr]
    rw [if_pos (by omega), if_pos (by omega)]

theorem render_bin_cell_frame (bins : List ℕ) (c : List ℕ) (bin bin' row' : ℕ)
    (hb : bin < num_bins bins) (hb' : bin' < num_bins bins) (hbin : bin ≠ bin') :
    chart_cell (num_bins bins) (render_bin bins c bin) bin' row'
      = chart_cell (num_bins bins) c bin' row' := by
  simp only [render_bin]
  split
  · rw [chart_cell_write_ne_bin _ _ _ _ _ _ _ hb hb' hbin,
      renderFill_frame (num_bins bins) bin bin' hb hb' hbin]
  · rw [renderFill_frame (num_bins bins) bin bin' hb hb' hbin]

theorem chart_cell_chart0 (bins : List ℕ) (bin row : ℕ) :
    chart_cell (num_bins bins) (chart0 bins) bin row = 0 := by
  rw [chart_cell, chart0, List.getD_eq_getElem?_getD, List.getElem?_replicate]
  split <;> rfl

theorem render_chart_aux_length (bins : List ℕ) :
    ∀ (l : List ℕ) (c : List ℕ), (l.foldl (render_bin bins) c).length = c.length := by
  intro l
  induction l with
  | nil => intro c; rfl
  | cons r l ih => intro c; rw [List.foldl_cons, ih, render_bin_length]

theorem render_chart_length (bins : List ℕ) :
    (render_chart bins).length = num_bins bins * num_rows := by
  rw [render_chart, render_chart_aux_length, chart0, List.length_replicate]

theorem render_chart_fold_cell (bins : List ℕ) (hmost : ∃ b ∈ bins, b ≠ 0) :
    ∀ (m : ℕ), m ≤ num_bins bins → ∀ (bin row : ℕ), bin < num_bins bins → row < num_rows →
      chart_cell (num_bins bins) ((List.range m).foldl (render_bin bins) (chart0 bins)) bin row
        = if bin < m then
            (if row < num_full_of bins bin then 8
             else if row = num_full_of bins bin then eighths_of bins bin
             else 0)
          else 0 := by
  intro m
  induction m with
  | zero =>
      intro hm bin row hb hr
      rw [List.range_zero, List.foldl_nil, chart_cell_chart0 bins bin row, if_neg (by omega)]
  | succ m ih =>
      intro hm bin row hb hr
      rw [List.range_succ, List.foldl_append, List.foldl_cons, List.foldl_nil]
      have hlen : ((List.range m).foldl (render_bin bins) (chart0 bins)).length
          = num_bins bins * num_rows := by
        rw [render_chart_aux_length, chart0, List.length_replicate]
      by_cases hbm : bin = m
      · subst hbm
        rw [render_bin_cell_self bins _ bin row hlen hb (num_full_le bins bin hmost) hr,
          ih (by omega) bin row hb hr]
        split_ifs <;> first | rfl | omega
      · rw [render_bin_cell_frame bins _ m bin row (by omega) hb (fun h => hbm h.symm),
          ih (by omega) bin row hb hr]
        split_ifs <;> first | rfl | omega

/-- Claim C7: when at least one bin entry is non-zero, the renderer's
scale factor is the reciprocal of the largest count anywhere in the bin
vector (sentinel slots included), and the rendered column of every bin
`bin < num_bins` (reading `bins[bin+1]`, skipping the underflow slot)
has exactly `num_full = floor(scaled_value * num_rows)` rows filled at
level 8, one partial row at level `floor(fract(scaled_value) * 8)`
directly above them whenever `num_full < num_rows`, and level 0
everywhere else. -/
theorem claim_C7_render_bin_quantization (bins : List ℕ) (h : ∃ b ∈ bins, b ≠ 0)
    (bin row : ℕ) (hb : bin < num_bins bins) (hr : row < num_rows) :
    scale_factor bins * (mostBin bins : ℚ) = 1 ∧
    chart_cell (num_bins bins) (render_chart bins) bin row =
      (if row < num_full_of bins bin then 8
       else if row = num_full_of bins bin then eighths_of bins bin
       else 0) := by
  constructor
  · have hpos : (mostBin bins : ℚ) ≠ 0 := by
      have := mostBin_pos bins h
      intro h0
      rw [show (0 : ℚ) = ((0 : ℕ) : ℚ) by norm_num] at h0
      have : mostBin bins = 0 := by exact_mod_cast h0
      omega
    rw [scale_factor, one_div, inv_mul_cancel₀ hpos]
  · rw [render_chart,
      render_chart_fold_cell bins h (num_bins bins) (le_refl _) bin row hb hr,
      if_pos hb]

/-- Claim C8: with at least one non-zero bin entry, `num_full` never
exceeds `num_rows` (because `scaled_value ≤ 1`), so the debug assertion
`num_full <= m_num_rows` cannot fire, and every offset `write_element`
can be asked to write during `render_bin` (filled rows `0 ≤ row < num_full`
and the partial row `num_full` itself) is strictly inside the chart
buffer. -/
theorem claim_C8_num_full_bounded (bins : List ℕ) (h : ∃ b ∈ bins, b ≠ 0)
    (bin : ℕ) (hb : bin < num_bins bins) :
    num_full_of bins bin ≤ num_rows ∧
    ∀ row : ℕ, row ≤ num_full_of bins bin →
      (num_rows - row - 1) * num_bins bins + bin < (chart0 bins).length := by
  refine ⟨num_full_le bins bin h, ?_⟩
  intro row _
  rw [chart0, List.length_replicate]
  exact offset_lt (num_bins bins) bin row hb

/-- `render_eighth`: level 0 renders as a space (also the `default` case
of the C++ switch), levels 1-8 as the block glyphs U+2581 .. U+2588. -/
def render_eighth (e : ℕ) : Char :=
  match e with
  | 1 => '▁'
  | 2 => '▂'
  | 3 => '▃'
  | 4 => '▄'
  | 5 => '▅'
  | 6 => '▆'
  | 7 => '▇'
  | 8 => '█'
  | _ => ' '

/-- `get_row(row)`: the chart-buffer slice
`[row * m_num_bins, (row + 1) * m_num_bins)`. -/
def get_row (nb : ℕ) (chart : List ℕ) (row : ℕ) : List ℕ :=
  (chart.drop (row * nb)).take nb

/-- `render_string()`: for each buffer row, in buffer order (buffer row 0
printed first; it holds chart row `m_num_rows - 1`, the top of the
chart), a `|` border, the glyphs of the row, a closing `|` and a
newline, accumulated left to right. -/
def render_string (nb : ℕ) (chart : List ℕ) : List Char :=
  (List.range num_rows).foldl
    (fun acc row =>
      acc ++ '|' :: ((get_row nb chart row).map render_eighth ++ ['|', '\n'])) []

/-- `render()`: render every bin column into the chart buffer, then
print it. -/
def render (bins : List ℕ) : List Char :=
  render_string (num_bins bins) (render_chart bins)

/-- One printed line of the chart: buffer row `row`, counted from the
top of the printed chart. -/
def render_line (bins : List ℕ) (row : ℕ) : List Char :=
  '|' :: ((get_row (num_bins bins) (render_chart bins) row).map render_eighth ++ ['|', '\n'])

theorem foldl_append_eq_flatten {α β : Type} (f : β → List α) :
    ∀ (l : List β) (acc : List α),
      l.foldl (fun a x => a ++ f x) acc = acc ++ (l.map f).flatten := by
  intro l
  induction l with
  | nil => intro acc; simp
  | cons x l ih =>
      intro acc
      rw [List.foldl_cons, ih, List.map_cons, List.flatten_cons, List.append_assoc]

theorem render_eq_flatten (bins : List ℕ) :
    render bins = ((List.range num_rows).map (render_line bins)).flatten := by
  rw [render, render_string]
  rw [foldl_append_eq_flatten
    (fun row => '|' :: ((get_row (num_bins bins) (render_chart bins) row).map
      render_eighth ++ ['|', '\n'])) (List.range num_rows) []]
  rw [List.nil_append]
  rfl

theorem get_row_length (bins : List ℕ) (row : ℕ) (hr : row < num_rows) :
    (get_row (num_bins bins) (render_chart bins) row).length = num_bins bins := by
  rw [get_row, List.length_take, List.length_drop, render_chart_length]
  have hle : row * num_bins bins + num_bins bins ≤ num_bins bins * num_rows := by
    calc row * num_bins bins + num_bins bins
        = (row + 1) * num_bins bins := by ring
      _ ≤ num_rows * num_bins bins := Nat.mul_le_mul_right _ (by omega)
      _ = num_bins bins * num_rows := by ring
  omega

theorem render_eighth_ne_newline : ∀ e : ℕ, render_eighth e ≠ '\n' := by
  intro e
  rcases e with _ | _ | _ | _ | _ | _ | _ | _ | _ | e
  · decide
  · decide
  · decide
  · decide
  · decide
  · decide
  · decide
  · decide
  · decide
  · intro hcon
    have hsp : (' ' : Char) = '\n' := hcon
    exact absurd hsp (by decide)

theorem render_line_count_newline (bins : List ℕ) (row : ℕ) :
    (render_line bins row).count '\n' = 1 := by
  have h0 : ((get_row (num_bins bins) (render_chart bins) row).map
      render_eighth).count '\n' = 0 := by
    rw [List.count_eq_zero]
    intro hmem
    rw [List.mem_map] at hmem
    obtain ⟨e, _, he⟩ := hmem
    exact render_eighth_ne_newline e he
  rw [render_line, List.count_cons, List.count_append, h0]
  decide

theorem render_line_split (bins : List ℕ) (row : ℕ) :
    render_line bins row =
      ('|' :: ((get_row (num_bins bins) (render_chart bins) row).map
        render_eighth ++ ['|'])) ++ ['\n'] := by
  rw [render_line]
  simp

/-- Claim C9: `render()` produces exactly `num_rows = 10` newline-
terminated lines (buffer rows emitted top to bottom; `write_element`
stores chart row 0, the bottom row, at the last buffer row), each line
being a `|` border, one glyph per bin column (`num_bins` of them, each a
single `render_eighth` unit), and a closing `|` before the newline —
`num_bins + 2` printable units per line. -/
theorem claim_C9_render_string_shape (bins : List ℕ) (h : ∃ b ∈ bins, b ≠ 0) :
    render bins = ((List.range num_rows).map (render_line bins)).flatten ∧
    (List.range num_rows).length = num_rows ∧
    num_rows = 10 ∧
    (∀ row : ℕ, row < num_rows →
      (render_line bins row).length = (num_bins bins + 2) + 1 ∧
      (render_line bins row).head? = some '|' ∧
      (render_line bins row).getLast? = some '\n' ∧
      (render_line bins row).dropLast.getLast? = some '|' ∧
      (render_line bins row).count '\n' = 1) ∧
    (render bins).count '\n' = num_rows ∧
    (∀ (c : List ℕ) (bin e : ℕ),
      write_element (num_bins bins) c bin 0 e =
        c.set ((num_rows - 1) * num_bins bins + bin) e) := by
  refine ⟨render_eq_flatten bins, List.length_range num_rows, rfl, ?_, ?_, ?_⟩
  · intro row hr
    refine ⟨?_, rfl, ?_, ?_, render_line_count_newline bins row⟩
    · rw [render_line, List.length_cons, List.length_append, List.length_map,
        get_row_length bins row hr]
      rfl
    · rw [render_line_split, List.getLast?_concat]
    · rw [render_line_split, List.dropLast_concat]
      have : ('|' :: ((get_row (num_bins bins) (render_chart bins) row).map
          render_eighth ++ ['|'])) =
          ('|' :: (get_row (num_bins bins) (render_chart bins) row).map
            render_eighth) ++ ['|'] := by simp
      rw [this, List.getLast?_concat]
  · rw [render_eq_flatten bins, List.count_flatten, List.map_map]
    have hmap : (List.range num_rows).map (List.count '\n' ∘ render_line bins) =
        (List.range num_rows).map (fun _ => 1) := by
      apply List.map_congr_left
      intro r _
      exact render_line_count_newline bins r
    rw [hmap]
    simp [num_rows_eq]
  · intro c bin e
    rw [write_element, Nat.sub_zero]

theorem claim_C3_histogram_entry_semantics_witness :
    compute_histogram [(1 : ℚ)/2, 3/2, 5/2, 7/2] 0 1 4 = [0, 1, 1, 1, 1, 0] ∧
    (compute_histogram [(1 : ℚ)/2, 3/2, 5/2, 7/2] 0 1 4).getD 0 0 =
      List.countP (fun x => x < 0) [(1 : ℚ)/2, 3/2, 5/2, 7/2] :=
  ⟨by norm_num [compute_histogram, histoGo, level, List.takeWhile, List.dropWhile],
    (claim_C3_histogram_entry_semantics [(1 : ℚ)/2, 3/2, 5/2, 7/2] 0 1 4
      (by norm_num [List.sorted_cons]) (by norm_num)).2.1⟩

theorem claim_C4_fit_never_collapses_witness :
    1 ≤ fitMinLevel [(1 : ℚ)/2, 3/2] 0 1 2 (1/2) ∧
    fitMinLevel [(1 : ℚ)/2, 3/2] 0 1 2 (1/2) ≤ fitMaxLevel [(1 : ℚ)/2, 3/2] 0 1 2 (1/2) ∧
    fitMaxLevel [(1 : ℚ)/2, 3/2] 0 1 2 (1/2) ≤ 2 + 1 ∧
    0 < (fit_histogram [(1 : ℚ)/2, 3/2] 0 1 2 (1/2)).2.1 ∧
    (fit_histogram [(1 : ℚ)/2, 3/2] 0 1 2 (1/2)).2.2.length = 2 + 2 :=
  claim_C4_fit_never_collapses [(1 : ℚ)/2, 3/2] 0 1 2 (1/2)
    (by norm_num) (by norm_num) (by norm_num) (by norm_num)

theorem claim_C5_noise_policy_witness :
    compute_noise [(1 : ℝ)] 3 = ⊤ ∧
    compute_noise [(1 : ℝ), 1, 1, 1, 1] 5 = ((0 : ℝ) : EReal) :=
  ⟨(claim_C5_noise_policy [(1 : ℝ)] 3).1 (by norm_num),
    (claim_C5_noise_policy [(1 : ℝ), 1, 1, 1, 1] 5).2 (by norm_num) 1 (by simp)
      (by norm_num)⟩

theorem claim_C6_percentiles_nearest_rank_witness :
    compute_percentiles [(1 : ℚ), 2, 3, 4, 5] [0, 50, 100] = [1, 3, 5] ∧
    (∀ v ∈ compute_percentiles [(1 : ℚ), 2, 3, 4, 5] [0, 50, 100],
      v ∈ [(1 : ℚ), 2, 3, 4, 5]) :=
  ⟨by
    have h50 : Int.toNat 50 = 50 := by decide
    norm_num [compute_percentiles, percentile_index, List.getD, h50],
    (claim_C6_percentiles_nearest_rank [(1 : ℚ), 2, 3, 4, 5] [0, 50, 100]
      (by simp) (by norm_num)).2.2⟩

theorem claim_C7_render_bin_quantization_witness :
    scale_factor [0, 3, 1, 0] * (mostBin [0, 3, 1, 0] : ℚ) = 1 ∧
    chart_cell (num_bins [0, 3, 1, 0]) (render_chart [0, 3, 1, 0]) 1 0 =
      (if 0 < num_full_of [0, 3, 1, 0] 1 then 8
       else if 0 = num_full_of [0, 3, 1, 0] 1 then eighths_of [0, 3, 1, 0] 1
       else 0) :=
  claim_C7_render_bin_quantization [0, 3, 1, 0] ⟨3, by decide, by decide⟩ 1 0
    (by decide) (by decide)

theorem claim_C8_num_full_bounded_witness :
    num_full_of [0, 3, 1, 0] 0 ≤ num_rows ∧
    ∀ row : ℕ, row ≤ num_full_of [0, 3, 1, 0] 0 →
      (num_rows - row - 1) * num_bins [0, 3, 1, 0] + 0 < (chart0 [0, 3, 1, 0]).length :=
  claim_C8_num_full_bounded [0, 3, 1, 0] ⟨3, by decide, by decide⟩ 0 (by decide)

theorem claim_C9_render_string_shape_witness :
    render [0, 3, 1, 0] = ((List.range num_rows).map (render_line [0, 3, 1, 0])).flatten ∧
    (render [0, 3, 1, 0]).count '\n' = num_rows :=
  ⟨(claim_C9_render_string_shape [0, 3, 1, 0] ⟨3, by decide, by decide⟩).1,
    (claim_C9_render_string_shape [0, 3, 1, 0] ⟨3, by decide, by decide⟩).2.2.2.2.1⟩

theorem claim_C10_percentile_index_safety_witness :
    percentile_index 5 100 < 5 ∧ percentile_index 0 100 = 2 ^ 64 - 1 :=
  claim_C10_percentile_index_safety 5 100 (by decide) (by norm_num)

end NvbenchModel
